import Mathlib

/-!
Shallow embedding of findbrokeninternallinks.py, a two-pass checker that
reports broken internal links in a set of HTML files.

Pure library functions the script calls (urllib.parse.urlparse and the
posix os.path helpers dirname, join, normpath, isabs) are embedded as
executable Lean functions over the character lists of strings.  The
filesystem-dependent operations (etree.parse on a path, os.path.exists,
os.path.isdir, os.path.realpath) are abstracted as a record of functions,
since their results depend on on-disk state.
-/

namespace FBIL

/-- HTML element as exposed by lxml: a tag name, an attribute map and a
source line number.  A parsed document is modelled as its list of elements
in document order; the selector queries used by the script only filter
elements by tag and attribute presence, so the flattened list carries all
the structure the script observes. -/
structure Elem where
  tag : String
  attrs : List (String × String)
  sourceline : Nat
deriving Repr, DecidableEq

/-- Attribute lookup, modelling an elt.attrib[name] access that the script
always guards by an attribute-presence selector. -/
def Elem.attr (e : Elem) (name : String) : Option String :=
  (e.attrs.find? (fun kv => kv.1 == name)).map (fun kv => kv.2)

/-- Abstract filesystem: the etree.parse outcome per path (none models a
parse exception), os.path.exists, os.path.isdir, and os.path.realpath. -/
structure FS where
  parse : String → Option (List Elem)
  pathExists : String → Bool
  isdir : String → Bool
  realpath : String → String

/-! Model of the string-splitting library helpers. -/

/-- Split a character list at the first occurrence of sep; the second
component is none when sep does not occur (str.split with maxsplit 1). -/
def splitFirstOn (sep : Char) : List Char → List Char × Option (List Char)
  | [] => ([], none)
  | c :: rest =>
    if c == sep then ([], some rest)
    else
      let r := splitFirstOn sep rest
      (c :: r.1, r.2)

/-- Characters allowed in a URL scheme after the leading letter. -/
def isSchemeChar (c : Char) : Bool :=
  c.isAlpha || c.isDigit || c == '+' || c == '-' || c == '.'

/-- Test applied by urlsplit to the text before the first colon. -/
def validScheme : List Char → Bool
  | [] => false
  | c :: rest => c.isAlpha && rest.all isSchemeChar

/-- Scheme-splitting step of urlsplit: when the text before the first colon
is a valid scheme it is taken (lowercased) and consumed, otherwise the URL
is left whole. -/
def splitScheme (cs : List Char) : List Char × List Char :=
  match splitFirstOn ':' cs with
  | (before, some rest) =>
    if validScheme before then (before.map Char.toLower, rest) else ([], cs)
  | (_, none) => ([], cs)

/-- Netloc scan of urlsplit: characters up to the next slash, question mark
or hash sign. -/
def splitNetloc : List Char → List Char × List Char
  | [] => ([], [])
  | c :: rest =>
    if c == '/' || c == '?' || c == '#' then ([], c :: rest)
    else
      let r := splitNetloc rest
      (c :: r.1, r.2)

/-- Parsed URL, with the fields of urllib ParseResult that this embedding
models (username/password/host accessors are never used). -/
structure Url where
  scheme : String
  netloc : String
  path : String
  params : String
  query : String
  fragment : String
deriving Repr, DecidableEq

/-- Schemes for which urlparse splits params off the last path segment
(urllib uses_params); the empty scheme of a relative reference is one. -/
def usesParams : List String :=
  ["", "ftp", "hdl", "prospero", "http", "imap", "https", "shttp", "rtsp",
   "rtspu", "sip", "sips", "mms", "sftp", "tel"]

/-- Model of urllib _splitparams, applied when the path contains a
semicolon: the split happens at the first semicolon of the last path
segment; when the last segment has none, the path is left whole. -/
def splitparams (cs : List Char) : List Char × List Char :=
  if cs.contains '/' then
    match splitFirstOn ';' (cs.reverse.takeWhile (fun c => c != '/')).reverse with
    | (a, some b) => ((cs.reverse.dropWhile (fun c => c != '/')).reverse ++ a, b)
    | (_, none) => (cs, [])
  else
    match splitFirstOn ';' cs with
    | (a, some b) => (a, b)
    | (_, none) => (cs, [])

/-- Netloc step of urlsplit: taken only when the remaining URL starts with
a double slash. -/
def netlocStage (cs : List Char) : List Char × List Char :=
  match cs with
  | c1 :: c2 :: rest =>
    if c1 == '/' && c2 == '/' then splitNetloc rest
    else ([], c1 :: c2 :: rest)
  | _ => ([], cs)

/-- Model of urllib.parse.urlparse for hrefs free of embedded whitespace:
scheme split first, then netloc after a double slash, then the fragment at
the first hash sign, then the query at the first question mark, and
finally params split off the last path segment for schemes that use
them. -/
def urlparse (href : String) : Url :=
  let s1 := splitScheme href.data
  let s2 := netlocStage s1.2
  let s3 := splitFirstOn '#' s2.2
  let fragment := s3.2.getD []
  let s4 := splitFirstOn '?' s3.1
  let query := s4.2.getD []
  let s5 :=
    if usesParams.contains (String.mk s1.1) && s4.1.contains ';' then
      splitparams s4.1
    else (s4.1, [])
  { scheme := String.mk s1.1, netloc := String.mk s2.1,
    path := String.mk s5.1, params := String.mk s5.2,
    query := String.mk query, fragment := String.mk fragment }

/-! Model of the posix os.path helpers. -/

/-- Model of posixpath.isabs. -/
def isabs (p : String) : Bool := p.data.head? == some '/'

/-- Model of posixpath.dirname: everything up to the final slash, with
trailing slashes stripped unless the head consists only of slashes. -/
def dirname (p : String) : String :=
  let head := (p.data.reverse.dropWhile (fun c => c != '/')).reverse
  if head.isEmpty || head.all (fun c => c == '/') then String.mk head
  else String.mk ((head.reverse.dropWhile (fun c => c == '/')).reverse)

/-- Model of posixpath.join on two components. -/
def pjoin (a b : String) : String :=
  if b.data.head? == some '/' then b
  else if a.data.isEmpty || a.data.getLast? == some '/' then String.mk (a.data ++ b.data)
  else String.mk (a.data ++ '/' :: b.data)

/-- Split on every occurrence of sep (str.split used by normpath). -/
def splitAllOn (sep : Char) : List Char → List (List Char)
  | [] => [[]]
  | c :: rest =>
    let r := splitAllOn sep rest
    if c == sep then [] :: r
    else
      match r with
      | [] => [[c]]
      | h :: t => (c :: h) :: t

/-- Join with a separator (str.join used by normpath). -/
def joinWith (sep : Char) : List (List Char) → List Char
  | [] => []
  | [x] => x
  | x :: xs => x ++ sep :: joinWith sep xs

/-- Component loop of posixpath.normpath: drops empty and dot components
and resolves dot-dot components against the accumulator (which holds the
emitted components in reverse). -/
def normParts (initSlashes : Bool) : List (List Char) → List (List Char) → List (List Char)
  | [], acc => acc.reverse
  | comp :: rest, acc =>
    if comp == [] || comp == ['.'] then normParts initSlashes rest acc
    else if comp != ['.', '.'] || (!initSlashes && acc.isEmpty) ||
            acc.head? == some ['.', '.'] then
      normParts initSlashes rest (comp :: acc)
    else
      match acc with
      | [] => normParts initSlashes rest []
      | _ :: tl => normParts initSlashes rest tl

/-- Model of posixpath.normpath. -/
def normpath (p : String) : String :=
  if p.data.isEmpty then "."
  else
    let initialSlashes : Nat :=
      match p.data with
      | '/' :: '/' :: '/' :: _ => 1
      | '/' :: '/' :: _ => 2
      | '/' :: _ => 1
      | _ => 0
    let comps := normParts (initialSlashes != 0) (splitAllOn '/' p.data) []
    let res := List.replicate initialSlashes '/' ++ joinWith '/' comps
    if res.isEmpty then "." else String.mk res

/-! Embedding of the FileProcessor class.  The anchor set field is passed
explicitly; it is represented as a list with set membership semantics. -/

/-- Diagnostic printed by FileProcessor._ParseFile on a parse failure. -/
def parseErrMsg (path : String) : String :=
  "*** Unable to parse HTML from \"" ++ path ++ "\""

/-- Canonical anchor string "path:element" used by FileProcessor. -/
def anchorKey (path elementName : String) : String :=
  path ++ ":" ++ elementName

/-- Set insertion (Python set.add) on the list representation. -/
def addAnchor (anchors : List String) (key : String) : List String :=
  if anchors.contains key then anchors else key :: anchors

/-- FileProcessor._AddAnchor. -/
def AddAnchor (anchors : List String) (path elementName : String) : List String :=
  addAnchor anchors (anchorKey path elementName)

/-- Anchor elements with a name attribute (the a[@name] selector). -/
def nameElems (root : List Elem) : List Elem :=
  root.filter (fun e => e.tag == "a" && (e.attr "name").isSome)

/-- Elements with an id attribute (the *[@id] selector). -/
def idElems (root : List Elem) : List Elem :=
  root.filter (fun e => (e.attr "id").isSome)

/-- FileProcessor._CollectAnchors: returns the updated anchor set together
with the lines printed (a parse diagnostic when parsing fails). -/
def CollectAnchors (fs : FS) (anchors : List String) (path : String) :
    List String × List String :=
  match fs.parse path with
  | none => (anchors, [parseErrMsg path])
  | some root =>
    let a := AddAnchor anchors path ""
    let a := (nameElems root).foldl
      (fun s e => AddAnchor s path ((e.attr "name").getD "")) a
    let a := (idElems root).foldl
      (fun s e => AddAnchor s path ((e.attr "id").getD "")) a
    (a, [])

/-- Resolution of the path component of an href against the path of the
containing file (the ref_path computation in FileProcessor._GetAnchor). -/
def resolvePath (fs : FS) (path urlPath : String) : String :=
  if urlPath != "" then
    if isabs urlPath then urlPath
    else fs.realpath (normpath (pjoin (dirname path) urlPath))
  else path

/-- FileProcessor._GetAnchor: empty string means the href is external or
points at an existing file or directory with no fragment. -/
def GetAnchor (fs : FS) (path href : String) : String :=
  let url := urlparse href
  if url.scheme != "" then ""
  else
    let refPath := resolvePath fs path url.path
    if url.fragment == "" then
      if fs.pathExists refPath then "" else refPath ++ ":" ++ url.fragment
    else
      let refPath2 := if fs.isdir refPath then refPath ++ "/index.html" else refPath
      refPath2 ++ ":" ++ url.fragment

/-- First line printed by FileProcessor._ReportBrokenLink. -/
def reportLine1 (path : String) (line : Nat) : String :=
  "*** Line " ++ toString line ++ " in \"" ++ path ++ "\":"

/-- Second line printed by FileProcessor._ReportBrokenLink. -/
def reportLine2 (href : String) : String :=
  "***     Broken link to \"" ++ href ++ "\""

/-- Per-element body of the loop in FileProcessor._FindBrokenLinks. -/
def checkLink (fs : FS) (anchors : List String) (path : String) (e : Elem) :
    List String :=
  match e.attr "href" with
  | none => []
  | some href =>
    let anchor := GetAnchor fs path href
    if anchor != "" && !(anchors.contains anchor) then
      [reportLine1 path e.sourceline, reportLine2 href]
    else []

/-- Anchor elements with an href attribute (the a[@href] selector). -/
def hrefElems (root : List Elem) : List Elem :=
  root.filter (fun e => e.tag == "a" && (e.attr "href").isSome)

/-- Lines printed while scanning one parsed document for broken links. -/
def brokenLinksInDoc (fs : FS) (anchors : List String) (path : String)
    (root : List Elem) : List String :=
  (hrefElems root).flatMap (checkLink fs anchors path)

/-- FileProcessor._FindBrokenLinks: returns the printed lines and the
anchor set it leaves behind (the method only reads the set). -/
def FindBrokenLinks (fs : FS) (anchors : List String) (path : String) :
    List String × List String :=
  match fs.parse path with
  | none => ([parseErrMsg path], anchors)
  | some root => (brokenLinksInDoc fs anchors path root, anchors)

/-- Collection pass of FileProcessor.ProcessPaths: threads the anchor set
over the paths, accumulating the printed lines. -/
def collectPass (fs : FS) (paths : List String) : List String × List String :=
  paths.foldl (fun acc p =>
    let r := CollectAnchors fs acc.1 p
    (r.1, acc.2 ++ r.2)) ([], [])

/-- FileProcessor.ProcessPaths: the full run, returning every line printed
to standard output, in order. -/
def ProcessPaths (fs : FS) (paths : List String) : List String :=
  let c := collectPass fs paths
  c.2 ++ paths.foldl (fun out p => out ++ (FindBrokenLinks fs c.1 p).1) []

/-! Helper lemmas. -/

theorem anchorKey_ne_empty (p n : String) : anchorKey p n ≠ "" := by
  intro h
  have hd := congrArg String.data h
  simp [anchorKey, String.data_append] at hd

theorem contains_true_of_mem {s : List String} {a : String} (h : a ∈ s) :
    s.contains a = true := by
  simp [List.contains]
  exact h

/-- Small filesystem with no parseable files, used to instantiate theorems
at concrete inputs. -/
def emptyFS : FS :=
  { parse := fun _ => none, pathExists := fun _ => false,
    isdir := fun _ => false, realpath := id }

/-- Filesystem on which every path exists. -/
def allExistFS : FS :=
  { parse := fun _ => none, pathExists := fun _ => true,
    isdir := fun _ => false, realpath := id }

/-- Filesystem on which every path is a directory. -/
def allDirFS : FS :=
  { parse := fun _ => none, pathExists := fun _ => true,
    isdir := fun _ => true, realpath := id }

/-! Claim C6: links with a scheme are silently ignored. -/

/-- C6: for every link whose href parses as a URL with a nonempty scheme,
_GetAnchor returns the empty string, so validation produces no broken-link
report and no other output for that element. -/
theorem C6_external_links_ignored (fs : FS) (anchors : List String)
    (path href : String) (hs : (urlparse href).scheme ≠ "") :
    GetAnchor fs path href = "" ∧
    ∀ e : Elem, e.attr "href" = some href → checkLink fs anchors path e = [] := by
  have hg : GetAnchor fs path href = "" := by
    simp [GetAnchor, hs]
  exact ⟨hg, fun e he => by simp [checkLink, he, hg]⟩

/-- C6 witness at a concrete external href and element. -/
theorem C6_witness :
    checkLink emptyFS [] "/site/a.html" ⟨"a", [("href", "https://example.com/x")], 4⟩ = [] :=
  (C6_external_links_ignored emptyFS [] "/site/a.html" "https://example.com/x"
    (by decide)).2 ⟨"a", [("href", "https://example.com/x")], 4⟩ (by decide)

/-! Claim C5: fragment-free links to existing paths are never reported. -/

/-- C5: for every link whose href carries no scheme and no fragment and
whose resolved path exists on disk, _GetAnchor returns the empty string and
no broken-link report is produced, regardless of the anchor set. -/
theorem C5_existing_path_without_fragment_never_reported (fs : FS)
    (anchors : List String) (path href : String)
    (hs : (urlparse href).scheme = "") (hf : (urlparse href).fragment = "")
    (hex : fs.pathExists (resolvePath fs path (urlparse href).path) = true) :
    GetAnchor fs path href = "" ∧
    ∀ e : Elem, e.attr "href" = some href → checkLink fs anchors path e = [] := by
  have hg : GetAnchor fs path href = "" := by
    simp [GetAnchor, hs, hf, hex]
  exact ⟨hg, fun e he => by simp [checkLink, he, hg]⟩

/-- C5 witness: a link to an existing image file with no anchors. -/
theorem C5_witness :
    checkLink allExistFS [] "/site/a.html" ⟨"a", [("href", "img/pic.png")], 6⟩ = [] :=
  (C5_existing_path_without_fragment_never_reported allExistFS [] "/site/a.html"
    "img/pic.png" (by decide) (by decide) (by decide)).2
    ⟨"a", [("href", "img/pic.png")], 6⟩ (by decide)

/-! Claim C4: directory-with-fragment links are checked against the
directory's index page. -/

/-- C4: for every link whose href carries a fragment and whose resolved
path is a directory, _GetAnchor appends /index.html to the resolved path,
and the link is reported broken exactly when that canonical form is absent
from the anchor set. -/
theorem C4_directory_fragment_checks_index_page (fs : FS)
    (anchors : List String) (path href : String)
    (hs : (urlparse href).scheme = "") (hf : (urlparse href).fragment ≠ "")
    (hdir : fs.isdir (resolvePath fs path (urlparse href).path) = true) :
    GetAnchor fs path href =
      anchorKey (resolvePath fs path (urlparse href).path ++ "/index.html")
        (urlparse href).fragment ∧
    ∀ e : Elem, e.attr "href" = some href →
      (checkLink fs anchors path e = [] ↔
        anchors.contains
          (anchorKey (resolvePath fs path (urlparse href).path ++ "/index.html")
            (urlparse href).fragment) = true) := by
  have hg : GetAnchor fs path href =
      anchorKey (resolvePath fs path (urlparse href).path ++ "/index.html")
        (urlparse href).fragment := by
    simp [GetAnchor, hs, hf, hdir, anchorKey]
  refine ⟨hg, fun e he => ?_⟩
  by_cases hc :
      anchors.contains
        (anchorKey (resolvePath fs path (urlparse href).path ++ "/index.html")
          (urlparse href).fragment) = true
  · simp [checkLink, he, hg, hc]
    exact Or.inr (by simpa [List.contains] using hc)
  · simp [checkLink, he, hg, hc,
      anchorKey_ne_empty (resolvePath fs path (urlparse href).path ++ "/index.html")
        (urlparse href).fragment]

/-- C4 witness: href subdir#x where subdir is a directory and
subdir/index.html defines the anchor, hence no report. -/
theorem C4_witness :
    checkLink allDirFS ["/site/subdir/index.html:x"] "/site/a.html"
      ⟨"a", [("href", "subdir#x")], 2⟩ = [] :=
  ((C4_directory_fragment_checks_index_page allDirFS ["/site/subdir/index.html:x"]
      "/site/a.html" "subdir#x" (by decide) (by decide) (by decide)).2
    ⟨"a", [("href", "subdir#x")], 2⟩ (by decide)).mpr (by decide)

/-! Membership structure of the collection pass. -/

theorem mem_addAnchor {s : List String} {k a : String} :
    a ∈ addAnchor s k ↔ a = k ∨ a ∈ s := by
  by_cases h : s.contains k = true
  · have hm : k ∈ s := by simpa [List.contains] using h
    simp only [addAnchor, h, if_true]
    constructor
    · exact Or.inr
    · rintro (rfl | hh)
      · exact hm
      · exact hh
  · have hm : k ∉ s := by simpa [List.contains] using h
    simp [addAnchor, h, hm]

theorem mem_foldl_addAnchor (g : Elem → String) :
    ∀ (l : List Elem) (s : List String) (a : String),
      a ∈ l.foldl (fun s e => addAnchor s (g e)) s ↔ a ∈ s ∨ ∃ e ∈ l, a = g e := by
  intro l
  induction l with
  | nil => intro s a; simp
  | cons e t ih =>
    intro s a
    simp only [List.foldl_cons]
    rw [ih, mem_addAnchor]
    simp only [List.mem_cons]
    constructor
    · rintro ((rfl | hs) | ⟨e', he', rfl⟩)
      · exact Or.inr ⟨e, Or.inl rfl, rfl⟩
      · exact Or.inl hs
      · exact Or.inr ⟨e', Or.inr he', rfl⟩
    · rintro (hs | ⟨e', (rfl | he'), rfl⟩)
      · exact Or.inl (Or.inr hs)
      · exact Or.inl (Or.inl rfl)
      · exact Or.inr ⟨e', he', rfl⟩

/-- Anchor strings contributed by one file during the collection pass. -/
def fileKeys (fs : FS) (p : String) : List String :=
  match fs.parse p with
  | none => []
  | some root =>
    anchorKey p "" ::
      ((nameElems root).map (fun e => anchorKey p ((e.attr "name").getD "")) ++
       (idElems root).map (fun e => anchorKey p ((e.attr "id").getD "")))

theorem mem_CollectAnchors_fst (fs : FS) (s : List String) (p a : String) :
    a ∈ (CollectAnchors fs s p).1 ↔ a ∈ s ∨ a ∈ fileKeys fs p := by
  cases hp : fs.parse p with
  | none => simp [CollectAnchors, fileKeys, hp]
  | some root =>
    simp only [CollectAnchors, fileKeys, hp, AddAnchor]
    rw [mem_foldl_addAnchor (fun e => anchorKey p ((e.attr "id").getD ""))]
    rw [mem_foldl_addAnchor (fun e => anchorKey p ((e.attr "name").getD ""))]
    rw [mem_addAnchor]
    simp only [List.mem_cons, List.mem_append, List.mem_map]
    constructor
    · rintro ((((rfl | hs)) | ⟨e, he, rfl⟩) | ⟨e, he, rfl⟩)
      · exact Or.inr (Or.inl rfl)
      · exact Or.inl hs
      · exact Or.inr (Or.inr (Or.inl ⟨e, he, rfl⟩))
      · exact Or.inr (Or.inr (Or.inr ⟨e, he, rfl⟩))
    · rintro (hs | (rfl | (⟨e, he, rfl⟩ | ⟨e, he, rfl⟩)))
      · exact Or.inl (Or.inl (Or.inr hs))
      · exact Or.inl (Or.inl (Or.inl rfl))
      · exact Or.inl (Or.inr ⟨e, he, rfl⟩)
      · exact Or.inr ⟨e, he, rfl⟩

theorem fileKeys_shape {fs : FS} {p a : String} (h : a ∈ fileKeys fs p) :
    ∃ n, a = anchorKey p n := by
  cases hp : fs.parse p with
  | none => rw [fileKeys, hp] at h; simp at h
  | some root =>
    rw [fileKeys, hp] at h
    rcases List.mem_cons.mp h with rfl | h
    · exact ⟨"", rfl⟩
    · rcases List.mem_append.mp h with h | h <;>
        · rcases List.mem_map.mp h with ⟨e, _, rfl⟩
          exact ⟨_, rfl⟩

/-- Lines printed by _CollectAnchors, which do not depend on the set. -/
def collectOutFor (fs : FS) (p : String) : List String :=
  match fs.parse p with
  | none => [parseErrMsg p]
  | some _ => []

theorem CollectAnchors_snd (fs : FS) (s : List String) (p : String) :
    (CollectAnchors fs s p).2 = collectOutFor fs p := by
  cases hp : fs.parse p <;> simp [CollectAnchors, collectOutFor, hp]

/-- Anchor-set component of the collection fold from a given initial set. -/
def collectSetFrom (fs : FS) (s : List String) (paths : List String) : List String :=
  paths.foldl (fun s p => (CollectAnchors fs s p).1) s

theorem collectPass_decomp (fs : FS) (paths : List String) :
    ∀ s o, paths.foldl (fun acc p =>
        let r := CollectAnchors fs acc.1 p
        (r.1, acc.2 ++ r.2)) (s, o)
      = (collectSetFrom fs s paths, o ++ (paths.map (collectOutFor fs)).flatten) := by
  induction paths with
  | nil => intro s o; simp [collectSetFrom]
  | cons p t ih =>
    intro s o
    simp only [List.foldl_cons]
    rw [ih]
    simp [collectSetFrom, CollectAnchors_snd]

theorem collectPass_eq (fs : FS) (paths : List String) :
    collectPass fs paths
      = (collectSetFrom fs [] paths, (paths.map (collectOutFor fs)).flatten) := by
  rw [collectPass, collectPass_decomp]
  simp

theorem mem_collectSetFrom (fs : FS) :
    ∀ (paths : List String) (s : List String) (a : String),
      a ∈ collectSetFrom fs s paths ↔ a ∈ s ∨ ∃ p ∈ paths, a ∈ fileKeys fs p := by
  intro paths
  induction paths with
  | nil => intro s a; simp [collectSetFrom]
  | cons p t ih =>
    intro s a
    simp only [collectSetFrom, List.foldl_cons]
    rw [show (t.foldl (fun s p => (CollectAnchors fs s p).1)
        ((CollectAnchors fs s p).1)) = collectSetFrom fs ((CollectAnchors fs s p).1) t
      from rfl]
    rw [ih, mem_CollectAnchors_fst]
    simp only [List.mem_cons]
    constructor
    · rintro ((hs | hk) | ⟨q, hq, hk⟩)
      · exact Or.inl hs
      · exact Or.inr ⟨p, Or.inl rfl, hk⟩
      · exact Or.inr ⟨q, Or.inr hq, hk⟩
    · rintro (hs | ⟨q, (rfl | hq), hk⟩)
      · exact Or.inl (Or.inl hs)
      · exact Or.inl (Or.inr hk)
      · exact Or.inr ⟨q, hq, hk⟩

theorem mem_collectPass_fst (fs : FS) (paths : List String) (a : String) :
    a ∈ (collectPass fs paths).1 ↔ ∃ p ∈ paths, a ∈ fileKeys fs p := by
  rw [collectPass_eq]
  simpa using mem_collectSetFrom fs paths [] a

/-! Claim C2: corrected.  Collection inserts the caller-supplied path
verbatim, and _GetAnchor canonicalizes only relative href paths: an
absolute href path is used as-is, without normalization. -/

/-- C2 counterexample: two textual absolute href paths that refer to the
same file produce different lookup targets, and the target built from the
dotted path is not normalized. -/
theorem C2_counterexample :
    GetAnchor emptyFS "/site/a.html" "/site/./b.html#x" = "/site/./b.html:x" ∧
    GetAnchor emptyFS "/site/a.html" "/site/b.html#x" = "/site/b.html:x" ∧
    normpath "/site/./b.html" = "/site/b.html" ∧
    ("/site/./b.html:x" : String) ≠ "/site/b.html:x" := by
  refine ⟨by decide, by decide, by decide, by decide⟩

/-- C2 as amended: a relative href path is resolved against the source
file's directory and canonicalized through normpath and realpath, while an
absolute href path is used exactly as written; anchors inserted during
collection always use the caller-supplied path verbatim. -/
theorem C2_amended_path_canonicalization (fs : FS) (path href : String)
    (hs : (urlparse href).scheme = "") (hp : (urlparse href).path ≠ "")
    (hf : (urlparse href).fragment ≠ "") :
    (isabs (urlparse href).path = true →
      fs.isdir (urlparse href).path = false →
      GetAnchor fs path href = anchorKey (urlparse href).path (urlparse href).fragment) ∧
    (isabs (urlparse href).path = false →
      fs.isdir (fs.realpath (normpath (pjoin (dirname path) (urlparse href).path))) = false →
      GetAnchor fs path href =
        anchorKey (fs.realpath (normpath (pjoin (dirname path) (urlparse href).path)))
          (urlparse href).fragment) ∧
    (∀ (s : List String) (p a : String),
      a ∈ (CollectAnchors fs s p).1 → a ∈ s ∨ ∃ n, a = anchorKey p n) := by
  refine ⟨fun habs hdir => ?_, fun habs hdir => ?_, fun s p a ha => ?_⟩
  · simp [GetAnchor, resolvePath, hs, hp, hf, habs, hdir, anchorKey]
  · simp [GetAnchor, resolvePath, hs, hp, hf, habs, hdir, anchorKey]
  · rcases (mem_CollectAnchors_fst fs s p a).mp ha with hm | hm
    · exact Or.inl hm
    · exact Or.inr (fileKeys_shape hm)

/-- C2 amended witness: a relative href is canonicalized, at a concrete
input. -/
theorem C2_amended_witness :
    GetAnchor emptyFS "/site/sub/a.html" "../b.html#x" = anchorKey "/site/b.html" "x" :=
  (C2_amended_path_canonicalization emptyFS "/site/sub/a.html" "../b.html#x"
    (by decide) (by decide) (by decide)).2.1 (by decide) (by decide)

/-! Validation output depends on the anchor set only through membership. -/

theorem checkLink_congr (fs : FS) {s₁ s₂ : List String}
    (h : ∀ a, a ∈ s₁ ↔ a ∈ s₂) (path : String) (e : Elem) :
    checkLink fs s₁ path e = checkLink fs s₂ path e := by
  cases he : e.attr "href" with
  | none => simp [checkLink, he]
  | some href => simp [checkLink, he, h (GetAnchor fs path href)]

theorem brokenLinksInDoc_congr (fs : FS) {s₁ s₂ : List String}
    (h : ∀ a, a ∈ s₁ ↔ a ∈ s₂) (path : String) (root : List Elem) :
    brokenLinksInDoc fs s₁ path root = brokenLinksInDoc fs s₂ path root := by
  simp only [brokenLinksInDoc]
  congr 1
  funext e
  exact checkLink_congr fs h path e

theorem FindBrokenLinks_fst_congr (fs : FS) {s₁ s₂ : List String}
    (h : ∀ a, a ∈ s₁ ↔ a ∈ s₂) (path : String) :
    (FindBrokenLinks fs s₁ path).1 = (FindBrokenLinks fs s₂ path).1 := by
  cases hp : fs.parse path with
  | none => simp [FindBrokenLinks, hp]
  | some root => simp [FindBrokenLinks, hp, brokenLinksInDoc_congr fs h path root]

theorem mem_collectPass_pair (fs : FS) (A B a : String) :
    a ∈ (collectPass fs [A, B]).1 ↔ a ∈ fileKeys fs A ∨ a ∈ fileKeys fs B := by
  rw [mem_collectPass_fst]
  constructor
  · rintro ⟨p, hp, hk⟩
    rcases List.mem_cons.mp hp with rfl | hp
    · exact Or.inl hk
    · rcases List.mem_cons.mp hp with rfl | hp
      · exact Or.inr hk
      · simp at hp
  · rintro (hk | hk)
    · exact ⟨A, by simp, hk⟩
    · exact ⟨B, by simp, hk⟩

/-! Claim C7: two-pass design makes reports order independent. -/

/-- C7: for any two input files A and B, the broken-link report lines that
validation produces for any file are identical whether the input list is
[A, B] or [B, A]: collection over all files completes before validation, so
the anchor set seen by validation has the same members either way. -/
theorem C7_reports_order_independent (fs : FS) (A B p : String) :
    (FindBrokenLinks fs (collectPass fs [A, B]).1 p).1 =
      (FindBrokenLinks fs (collectPass fs [B, A]).1 p).1 := by
  apply FindBrokenLinks_fst_congr
  intro a
  rw [mem_collectPass_pair, mem_collectPass_pair]
  exact or_comm

/-! Claim C8: the anchor set only grows during collection and is left
unchanged by validation. -/

/-- C8: every anchor already in the set survives a _CollectAnchors step
(the pass only inserts), and _FindBrokenLinks returns the anchor set
exactly as it received it. -/
theorem C8_anchorset_monotone_and_readonly (fs : FS) (s : List String) (p : String) :
    (∀ a, a ∈ s → a ∈ (CollectAnchors fs s p).1) ∧
    (FindBrokenLinks fs s p).2 = s := by
  constructor
  · intro a ha
    exact (mem_CollectAnchors_fst fs s p a).mpr (Or.inl ha)
  · cases hp : fs.parse p <;> simp [FindBrokenLinks, hp]

/-- C8 witness at a concrete set and path. -/
theorem C8_witness :
    "/q.html:top" ∈ (CollectAnchors emptyFS ["/q.html:top"] "/p.html").1 ∧
    (FindBrokenLinks emptyFS ["/q.html:top"] "/p.html").2 = ["/q.html:top"] :=
  ⟨(C8_anchorset_monotone_and_readonly emptyFS ["/q.html:top"] "/p.html").1
      "/q.html:top" (by decide),
    (C8_anchorset_monotone_and_readonly emptyFS ["/q.html:top"] "/p.html").2⟩

/-! Claim C9: the run is a deterministic function of its inputs. -/

/-- C9: two complete runs over the same filesystem state and path list
produce identical output lines, and the validation output is insensitive
to the representation of the anchor set (it depends only on membership,
so iteration order of the underlying set cannot influence the output). -/
theorem C9_output_deterministic :
    (∀ (fs : FS) (paths out₁ out₂ : List String),
        out₁ = ProcessPaths fs paths → out₂ = ProcessPaths fs paths → out₁ = out₂) ∧
    (∀ (fs : FS) (s₁ s₂ : List String) (p : String),
        (∀ a, a ∈ s₁ ↔ a ∈ s₂) →
        (FindBrokenLinks fs s₁ p).1 = (FindBrokenLinks fs s₂ p).1) :=
  ⟨fun _ _ _ _ h₁ h₂ => h₁.trans h₂.symm,
   fun fs _ _ p h => FindBrokenLinks_fst_congr fs h p⟩

/-- C9 witness: a rerun at a concrete input gives the same output, and two
set representations with equal membership give the same validation lines. -/
theorem C9_witness :
    ProcessPaths emptyFS ["/p.html"] = ProcessPaths emptyFS ["/p.html"] ∧
    (FindBrokenLinks emptyFS ["/a.html:x", "/b.html:y"] "/p.html").1 =
      (FindBrokenLinks emptyFS ["/b.html:y", "/a.html:x", "/a.html:x"] "/p.html").1 :=
  ⟨C9_output_deterministic.1 emptyFS ["/p.html"] _ _ rfl rfl,
   C9_output_deterministic.2 emptyFS _ _ "/p.html"
     (by intro a; constructor <;> (intro h; simp at h ⊢; tauto))⟩

/-! Claim C10: only href attributes of anchor elements are validated. -/

theorem hrefElems_idem (root : List Elem) : hrefElems (hrefElems root) = hrefElems root := by
  simp [hrefElems, List.filter_filter]

/-- C10: the validation output of a parsed file is entirely determined by
its a-tagged elements carrying an href attribute; in particular a document
with no a elements (whatever href or src attributes its other elements
carry) produces no broken-link report. -/
theorem C10_only_anchor_href_elements_checked (fs : FS) (anchors : List String)
    (path : String) (doc : List Elem) (hparse : fs.parse path = some doc) :
    (FindBrokenLinks fs anchors path).1 =
      brokenLinksInDoc fs anchors path (hrefElems doc) ∧
    ((∀ e ∈ doc, e.tag ≠ "a") → (FindBrokenLinks fs anchors path).1 = []) := by
  have h1 : (FindBrokenLinks fs anchors path).1 = brokenLinksInDoc fs anchors path doc := by
    simp [FindBrokenLinks, hparse]
  constructor
  · rw [h1]
    simp only [brokenLinksInDoc, hrefElems_idem]
  · intro h
    rw [h1]
    have hnil : hrefElems doc = [] := by
      simp only [hrefElems, List.filter_eq_nil_iff]
      intro e he
      simp [h e he]
    simp [brokenLinksInDoc, hnil]

/-- Filesystem with a single parseable file holding href and src
attributes only on non-anchor elements. -/
def linkOnlyFS : FS :=
  { parse := fun p =>
      if p = "/c.html" then
        some [⟨"link", [("href", "style.css#q")], 1⟩, ⟨"img", [("src", "pic.png")], 2⟩]
      else none,
    pathExists := fun _ => false, isdir := fun _ => false, realpath := id }

/-- C10 witness: a link element's href and an img element's src are never
reported. -/
theorem C10_witness : (FindBrokenLinks linkOnlyFS [] "/c.html").1 = [] :=
  (C10_only_anchor_href_elements_checked linkOnlyFS [] "/c.html"
    [⟨"link", [("href", "style.css#q")], 1⟩, ⟨"img", [("src", "pic.png")], 2⟩]
    (by decide)).2 (by decide)

/-! Characterization of urlparse on the href shapes claim C3 speaks about. -/

theorem mk_data (s : String) : String.mk s.data = s := rfl

theorem splitFirstOn_cons (sep c : Char) (t : List Char) :
    splitFirstOn sep (c :: t) =
      if c == sep then ([], some t)
      else (c :: (splitFirstOn sep t).1, (splitFirstOn sep t).2) := rfl

theorem splitFirstOn_nil (sep : Char) : splitFirstOn sep [] = ([], none) := rfl

theorem splitFirstOn_of_not_mem {sep : Char} :
    ∀ {cs : List Char}, sep ∉ cs → splitFirstOn sep cs = (cs, none) := by
  intro cs
  induction cs with
  | nil => intro; rfl
  | cons c t ih =>
    intro h
    have hc : (c == sep) = false := by
      apply beq_eq_false_iff_ne.mpr
      intro hcs
      exact h (List.mem_cons.mpr (Or.inl hcs.symm))
    have ht := ih (fun hm => h (List.mem_cons.mpr (Or.inr hm)))
    rw [splitFirstOn_cons, hc, ht]
    simp

theorem splitFirstOn_append {sep : Char} {bs : List Char} :
    ∀ {as : List Char}, sep ∉ as → splitFirstOn sep (as ++ sep :: bs) = (as, some bs) := by
  intro as
  induction as with
  | nil => intro; simp [splitFirstOn_cons]
  | cons c t ih =>
    intro h
    have hc : (c == sep) = false := by
      apply beq_eq_false_iff_ne.mpr
      intro hcs
      exact h (List.mem_cons.mpr (Or.inl hcs.symm))
    have ht := ih (fun hm => h (List.mem_cons.mpr (Or.inr hm)))
    rw [List.cons_append, splitFirstOn_cons, hc, ht]
    simp

theorem splitScheme_head_not_alpha {c : Char} {tl : List Char} (h : c.isAlpha = false) :
    splitScheme (c :: tl) = ([], c :: tl) := by
  by_cases hc : c = ':'
  · subst hc
    simp [splitScheme, splitFirstOn, validScheme]
  · have hcc : (c == ':') = false := by simpa using hc
    cases hr : splitFirstOn ':' tl with
    | mk before rest =>
      cases rest with
      | none => simp [splitScheme, splitFirstOn, hcc, hr]
      | some r => simp [splitScheme, splitFirstOn, hcc, hr, validScheme, h]

theorem netlocStage_second_ne {c1 c2 : Char} {tl : List Char}
    (h : (c2 == '/') = false) :
    netlocStage (c1 :: c2 :: tl) = ([], c1 :: c2 :: tl) := by
  simp [netlocStage, h]

theorem netlocStage_first_ne {c1 c2 : Char} {tl : List Char}
    (h : (c1 == '/') = false) :
    netlocStage (c1 :: c2 :: tl) = ([], c1 :: c2 :: tl) := by
  simp [netlocStage, h]

theorem splitparams_noop {cs : List Char} (hs : cs.contains '/' = true)
    (hseg : ';' ∉ cs.reverse.takeWhile (fun c => c != '/')) :
    splitparams cs = (cs, []) := by
  have h1 : ';' ∉ (cs.reverse.takeWhile (fun c => c != '/')).reverse := by
    simpa using hseg
  rw [splitparams, if_pos hs, splitFirstOn_of_not_mem h1]

/-- Pure fragment reference: urlparse of a hash sign followed by any
fragment text yields an empty scheme and path and that fragment. -/
theorem urlparse_pure_fragment (x : String) :
    urlparse ("#" ++ x) = ⟨"", "", "", "", "", x⟩ := by
  have hd : ("#" ++ x).data = '#' :: x.data := by
    simp [String.data_append]
  have hs : splitScheme ('#' :: x.data) = ([], '#' :: x.data) :=
    splitScheme_head_not_alpha (by decide)
  have hn : netlocStage ('#' :: x.data) = ([], '#' :: x.data) := by
    cases hx : x.data with
    | nil => rfl
    | cons c2 r => exact netlocStage_first_ne (by decide)
  simp [urlparse, hd, hs, hn, splitFirstOn_cons, splitFirstOn_nil, mk_data,
    List.contains]

/-- Absolute path with fragment: urlparse of F followed by a hash sign and
x, for F an absolute path not starting with a double slash, free of hash
and question-mark characters and with no semicolon in its final path
segment, yields path F and fragment x. -/
theorem urlparse_abs_path_fragment (F x : String)
    (habs : F.data.head? = some '/') (h2 : F.data.tail.head? ≠ some '/')
    (hnh : '#' ∉ F.data) (hnq : '?' ∉ F.data)
    (hsemi : ';' ∉ F.data.reverse.takeWhile (fun c => c != '/')) :
    urlparse (F ++ "#" ++ x) = ⟨"", "", F, "", "", x⟩ := by
  obtain ⟨t, ht⟩ : ∃ t, F.data = '/' :: t := by
    cases hF : F.data with
    | nil => rw [hF] at habs; simp at habs
    | cons c r =>
      rw [hF] at habs
      simp only [List.head?_cons, Option.some.injEq] at habs
      exact ⟨r, by rw [habs]⟩
  have hd : (F ++ "#" ++ x).data = '/' :: (t ++ '#' :: x.data) := by
    simp [String.data_append, ht]
  have hs : splitScheme ('/' :: (t ++ '#' :: x.data)) = ([], '/' :: (t ++ '#' :: x.data)) :=
    splitScheme_head_not_alpha (by decide)
  have hn : netlocStage ('/' :: (t ++ '#' :: x.data)) = ([], '/' :: (t ++ '#' :: x.data)) := by
    cases htl : t with
    | nil => exact netlocStage_second_ne (by decide)
    | cons c2 r =>
      have : c2 ≠ '/' := by
        rw [ht, htl] at h2
        simpa using h2
      exact netlocStage_second_ne (by simpa using this)
  have hfr : splitFirstOn '#' ('/' :: (t ++ '#' :: x.data)) = (F.data, some x.data) := by
    rw [show ('/' :: (t ++ '#' :: x.data)) = ('/' :: t) ++ '#' :: x.data from rfl, ← ht]
    exact splitFirstOn_append hnh
  have hq : splitFirstOn '?' F.data = (F.data, none) := splitFirstOn_of_not_mem hnq
  have h5 : splitparams F.data = (F.data, []) := by
    apply splitparams_noop
    · rw [ht]
      simp [List.contains]
    · exact hsemi
  simp [urlparse, hd, hs, hn, hfr, hq, h5, mk_data]

theorem GetAnchor_pure_fragment (fs : FS) (F x : String)
    (hx : x ≠ "") (hdir : fs.isdir F = false) :
    GetAnchor fs F ("#" ++ x) = anchorKey F x := by
  simp [GetAnchor, urlparse_pure_fragment x, resolvePath, hx, hdir, anchorKey]

theorem GetAnchor_abs_fragment (fs : FS) (src F x : String)
    (habs : F.data.head? = some '/') (h2 : F.data.tail.head? ≠ some '/')
    (hnh : '#' ∉ F.data) (hnq : '?' ∉ F.data)
    (hsemi : ';' ∉ F.data.reverse.takeWhile (fun c => c != '/'))
    (hx : x ≠ "") (hdir : fs.isdir F = false) :
    GetAnchor fs src (F ++ "#" ++ x) = anchorKey F x := by
  have hu := urlparse_abs_path_fragment F x habs h2 hnh hnq hsemi
  have hFne : F ≠ "" := by
    intro hF
    rw [hF] at habs
    simp at habs
  have hab : isabs F = true := by simp [isabs, habs]
  simp [GetAnchor, hu, resolvePath, hFne, hab, hx, hdir, anchorKey]

/-! Claim C3: corrected.  urlparse strips ";params" from the final path
segment of a scheme-less href, so for a file whose basename contains a
semicolon a link F#x resolves to a truncated path and is reported broken
even though F defines id x.  The claim holds once F's final path segment
is semicolon-free. -/

/-- Filesystem for the C3 counterexample: a file whose name contains a
semicolon defines id x and links to itself. -/
def fsC3cx : FS :=
  { parse := fun p =>
      if p = "/docs/a;b.html" then
        some [⟨"h2", [("id", "x")], 3⟩,
              ⟨"a", [("href", "/docs/a;b.html#x")], 5⟩]
      else none,
    pathExists := fun _ => false, isdir := fun _ => false, realpath := id }

/-- C3 counterexample: the file parses and carries id x, yet the link
href F#x is resolved to the params-stripped path /docs/a and the run
reports it broken. -/
theorem C3_counterexample :
    GetAnchor fsC3cx "/docs/a;b.html" "/docs/a;b.html#x" = "/docs/a:x" ∧
    ProcessPaths fsC3cx ["/docs/a;b.html"] =
      [reportLine1 "/docs/a;b.html" 5, reportLine2 "/docs/a;b.html#x"] := by
  refine ⟨by decide, by decide⟩

/-- C3 as amended: if a processed file F parses successfully and some
element of it carries id x, then the canonical anchor F:x is in the
collected anchor set, a link href F#x from any file resolves to exactly
that anchor, a link #x from within F does too, and in both cases
validation produces no broken-link report for the linking element.  F is
assumed to be a plain absolute file path (no hash or question-mark
characters, not double-slash-initial, and no semicolon in its final path
segment, which urlparse would strip as params) that is not a directory,
and x is nonempty. -/
theorem C3_amended_id_anchors_resolve (fs : FS) (paths : List String)
    (F x src : String) (doc : List Elem) (e : Elem)
    (hmem : F ∈ paths) (hparse : fs.parse F = some doc)
    (he : e ∈ doc) (hid : e.attr "id" = some x)
    (habs : F.data.head? = some '/') (h2 : F.data.tail.head? ≠ some '/')
    (hnh : '#' ∉ F.data) (hnq : '?' ∉ F.data)
    (hsemi : ';' ∉ F.data.reverse.takeWhile (fun c => c != '/'))
    (hx : x ≠ "") (hdir : fs.isdir F = false) :
    anchorKey F x ∈ (collectPass fs paths).1 ∧
    GetAnchor fs src (F ++ "#" ++ x) = anchorKey F x ∧
    GetAnchor fs F ("#" ++ x) = anchorKey F x ∧
    (∀ e' : Elem, e'.attr "href" = some (F ++ "#" ++ x) →
      checkLink fs (collectPass fs paths).1 src e' = []) ∧
    (∀ e' : Elem, e'.attr "href" = some ("#" ++ x) →
      checkLink fs (collectPass fs paths).1 F e' = []) := by
  have hkey : anchorKey F x ∈ (collectPass fs paths).1 := by
    apply (mem_collectPass_fst fs paths (anchorKey F x)).mpr
    refine ⟨F, hmem, ?_⟩
    rw [fileKeys, hparse]
    apply List.mem_cons.mpr
    right
    apply List.mem_append.mpr
    right
    apply List.mem_map.mpr
    refine ⟨e, List.mem_filter.mpr ⟨he, by simp [hid]⟩, ?_⟩
    rw [hid]
    rfl
  have hga := GetAnchor_abs_fragment fs src F x habs h2 hnh hnq hsemi hx hdir
  have hgp := GetAnchor_pure_fragment fs F x hx hdir
  have hcontains := contains_true_of_mem hkey
  refine ⟨hkey, hga, hgp, fun e' he' => ?_, fun e' he' => ?_⟩
  · simp [checkLink, he', hga, hcontains]
    exact fun _ => hkey
  · simp [checkLink, he', hgp, hcontains]
    exact fun _ => hkey

/-- Filesystem with a single parseable file defining one id anchor. -/
def fsC3 : FS :=
  { parse := fun p =>
      if p = "/docs/f.html" then some [⟨"h2", [("id", "sec")], 3⟩] else none,
    pathExists := fun _ => false, isdir := fun _ => false, realpath := id }

/-- C3 amended witness at a concrete file, anchor and pair of links. -/
theorem C3_amended_witness :
    anchorKey "/docs/f.html" "sec" ∈ (collectPass fsC3 ["/docs/f.html"]).1 ∧
    checkLink fsC3 (collectPass fsC3 ["/docs/f.html"]).1 "/docs/g.html"
      ⟨"a", [("href", "/docs/f.html#sec")], 7⟩ = [] ∧
    checkLink fsC3 (collectPass fsC3 ["/docs/f.html"]).1 "/docs/f.html"
      ⟨"a", [("href", "#sec")], 8⟩ = [] :=
  have h := C3_amended_id_anchors_resolve fsC3 ["/docs/f.html"] "/docs/f.html" "sec"
    "/docs/g.html" [⟨"h2", [("id", "sec")], 3⟩] ⟨"h2", [("id", "sec")], 3⟩
    (by decide) (by decide) (by decide) (by decide) (by decide) (by decide)
    (by decide) (by decide) (by decide) (by decide) (by decide)
  ⟨h.1, h.2.2.2.1 ⟨"a", [("href", "/docs/f.html#sec")], 7⟩ (by decide),
    h.2.2.2.2 ⟨"a", [("href", "#sec")], 8⟩ (by decide)⟩

/-! Claim C1: corrected.  The script parses every file once per pass, and
each failing parse prints the diagnostic, so an unparseable file produces
the diagnostic twice per run, not once. -/

theorem foldl_append_eq_flatten {α β : Type} (f : α → List β) :
    ∀ (l : List α) (init : List β),
      l.foldl (fun out p => out ++ f p) init = init ++ (l.map f).flatten := by
  intro l
  induction l with
  | nil => intro init; simp
  | cons p t ih =>
    intro init
    simp only [List.foldl_cons, List.map_cons, List.flatten_cons]
    rw [ih]
    simp [List.append_assoc]

theorem ProcessPaths_eq (fs : FS) (paths : List String) :
    ProcessPaths fs paths =
      (paths.map (collectOutFor fs)).flatten ++
      (paths.map
        (fun p => (FindBrokenLinks fs (collectSetFrom fs [] paths) p).1)).flatten := by
  rw [ProcessPaths, collectPass_eq,
    foldl_append_eq_flatten (fun p => (FindBrokenLinks fs (collectSetFrom fs [] paths) p).1)]
  simp

theorem parseErrMsg_inj {p q : String} (h : parseErrMsg p = parseErrMsg q) : p = q := by
  have hd : ("*** Unable to parse HTML from \"").data ++ (p.data ++ ("\"").data)
      = ("*** Unable to parse HTML from \"").data ++ (q.data ++ ("\"").data) := by
    have h' := congrArg String.data h
    simpa [parseErrMsg, String.data_append, List.append_assoc] using h'
  have h1 := List.append_cancel_left hd
  have h2 := List.append_cancel_right h1
  exact String.ext h2

theorem parseErrMsg_getElem4 (p : String) : (parseErrMsg p).data[4]? = some 'U' := by
  show ((("*** Unable to parse HTML from \"" ++ p) ++ "\"").data)[4]? = some 'U'
  rw [String.data_append, String.data_append, List.append_assoc]
  rw [List.getElem?_append_left (by decide)]
  decide

theorem reportLine1_getElem4 (q : String) (n : Nat) :
    (reportLine1 q n).data[4]? = some 'L' := by
  show (((("*** Line " ++ toString n) ++ " in \"") ++ q ++ "\":").data)[4]? = some 'L'
  rw [String.data_append, String.data_append, String.data_append, String.data_append,
    List.append_assoc, List.append_assoc, List.append_assoc]
  rw [List.getElem?_append_left (by decide)]
  decide

theorem reportLine2_getElem4 (href : String) :
    (reportLine2 href).data[4]? = some ' ' := by
  show ((("***     Broken link to \"" ++ href) ++ "\"").data)[4]? = some ' '
  rw [String.data_append, String.data_append, List.append_assoc]
  rw [List.getElem?_append_left (by decide)]
  decide

theorem parseErrMsg_ne_reportLine1 (p q : String) (n : Nat) :
    parseErrMsg p ≠ reportLine1 q n := by
  intro h
  have h1 := parseErrMsg_getElem4 p
  rw [h, reportLine1_getElem4 q n] at h1
  simp at h1

theorem parseErrMsg_ne_reportLine2 (p href : String) :
    parseErrMsg p ≠ reportLine2 href := by
  intro h
  have h1 := parseErrMsg_getElem4 p
  rw [h, reportLine2_getElem4 href] at h1
  simp at h1

theorem parseErrMsg_not_mem_brokenLinksInDoc (fs : FS) (anchors : List String)
    (path p : String) (root : List Elem) :
    parseErrMsg p ∉ brokenLinksInDoc fs anchors path root := by
  intro h
  rcases List.mem_flatMap.mp h with ⟨e, _, hmem⟩
  cases he : e.attr "href" with
  | none => simp [checkLink, he] at hmem
  | some href =>
    simp only [checkLink, he] at hmem
    split at hmem
    · rcases List.mem_cons.mp hmem with h1 | h2
      · exact parseErrMsg_ne_reportLine1 p path e.sourceline h1
      · rcases List.mem_cons.mp h2 with h3 | h4
        · exact parseErrMsg_ne_reportLine2 p href h3
        · simp at h4
    · simp at hmem

theorem count_flatten_eq_sum {α : Type} [BEq α] (a : α) :
    ∀ L : List (List α), L.flatten.count a = (L.map (List.count a)).sum := by
  intro L
  induction L with
  | nil => simp
  | cons l t ih => simp [List.count_append, ih]

theorem count_parseErr_collectOut (fs : FS) {p : String} (hp : fs.parse p = none)
    (q : String) :
    (collectOutFor fs q).count (parseErrMsg p) = if q = p then 1 else 0 := by
  by_cases hqp : q = p
  · subst hqp
    simp [collectOutFor, hp, List.count_singleton]
  · cases hq : fs.parse q with
    | none =>
      have hne : (parseErrMsg q == parseErrMsg p) = false := by
        apply beq_eq_false_iff_ne.mpr
        intro hh
        exact hqp (parseErrMsg_inj hh)
      simp [collectOutFor, hq, List.count_singleton, hne, hqp]
    | some root => simp [collectOutFor, hq, hqp]

theorem count_parseErr_validateOut (fs : FS) {p : String} (hp : fs.parse p = none)
    (anchors : List String) (q : String) :
    ((FindBrokenLinks fs anchors q).1).count (parseErrMsg p) = if q = p then 1 else 0 := by
  by_cases hqp : q = p
  · subst hqp
    simp [FindBrokenLinks, hp, List.count_singleton]
  · cases hq : fs.parse q with
    | none =>
      have hne : (parseErrMsg q == parseErrMsg p) = false := by
        apply beq_eq_false_iff_ne.mpr
        intro hh
        exact hqp (parseErrMsg_inj hh)
      simp [FindBrokenLinks, hq, List.count_singleton, hne, hqp]
    | some root =>
      simp only [FindBrokenLinks, hq, hqp, if_false]
      exact List.count_eq_zero.mpr
        (parseErrMsg_not_mem_brokenLinksInDoc fs anchors q p root)

theorem sum_map_indicator (p : String) :
    ∀ paths : List String, (paths.map (fun q => if q = p then 1 else 0)).sum
      = paths.count p := by
  intro paths
  induction paths with
  | nil => simp
  | cons q t ih =>
    simp only [List.map_cons, List.sum_cons, List.count_cons, ih]
    by_cases hqp : q = p <;> simp [hqp, Nat.add_comm]

/-- C1 counterexample filesystem: one unparseable and one parseable file. -/
def fsC1 : FS :=
  { parse := fun p => if p = "/good.html" then some [] else none,
    pathExists := fun _ => false, isdir := fun _ => false, realpath := id }

/-- C1 counterexample: the whole run prints the parse diagnostic for the
unparseable file twice (once per pass), not exactly once as claimed. -/
theorem C1_counterexample :
    (ProcessPaths fsC1 ["/bad.html", "/good.html"]).count (parseErrMsg "/bad.html") = 2 ∧
    (ProcessPaths fsC1 ["/bad.html", "/good.html"]).count (parseErrMsg "/bad.html") ≠ 1 := by
  refine ⟨by decide, by decide⟩

/-- C1 as amended: a file whose content fails to parse causes the run to
print its diagnostic exactly twice (once in the collection pass, once in
the validation pass), contributes zero anchors and zero broken-link
reports, and every other file's validation output still appears in the
run's output. -/
theorem C1_amended_parse_failure_isolated (fs : FS) (paths : List String)
    (p : String) (hp : fs.parse p = none) (hcount : paths.count p = 1) :
    (ProcessPaths fs paths).count (parseErrMsg p) = 2 ∧
    (∀ s, CollectAnchors fs s p = (s, [parseErrMsg p])) ∧
    (∀ s, FindBrokenLinks fs s p = ([parseErrMsg p], s)) ∧
    (∀ q ∈ paths,
      ((FindBrokenLinks fs (collectPass fs paths).1 q).1).Sublist
        (ProcessPaths fs paths)) := by
  refine ⟨?_, fun s => by simp [CollectAnchors, hp], fun s => by simp [FindBrokenLinks, hp],
    fun q hq => ?_⟩
  · rw [ProcessPaths_eq, List.count_append, count_flatten_eq_sum, count_flatten_eq_sum,
      List.map_map, List.map_map]
    have hc : (paths.map (List.count (parseErrMsg p) ∘ collectOutFor fs)).sum
        = paths.count p := by
      rw [List.map_congr_left (fun q _ => by
        show (List.count (parseErrMsg p) ∘ collectOutFor fs) q = _
        exact count_parseErr_collectOut fs hp q)]
      exact sum_map_indicator p paths
    have hv : (paths.map (List.count (parseErrMsg p) ∘
        fun q => (FindBrokenLinks fs (collectSetFrom fs [] paths) q).1)).sum
        = paths.count p := by
      rw [List.map_congr_left (fun q _ => by
        show (List.count (parseErrMsg p) ∘
          fun q => (FindBrokenLinks fs (collectSetFrom fs [] paths) q).1) q = _
        exact count_parseErr_validateOut fs hp (collectSetFrom fs [] paths) q)]
      exact sum_map_indicator p paths
    rw [hc, hv, hcount]
  · rw [ProcessPaths_eq]
    have hm : (FindBrokenLinks fs (collectPass fs paths).1 q).1 ∈
        paths.map (fun r => (FindBrokenLinks fs (collectSetFrom fs [] paths) r).1) := by
      rw [collectPass_eq]
      exact List.mem_map.mpr ⟨q, hq, rfl⟩
    exact (List.sublist_flatten_of_mem hm).trans
      (List.sublist_append_right _ _)

/-- C1 amended witness at the concrete two-file filesystem. -/
theorem C1_amended_witness :
    (ProcessPaths fsC1 ["/bad.html", "/good.html"]).count (parseErrMsg "/bad.html") = 2 ∧
    CollectAnchors fsC1 [] "/bad.html" = ([], [parseErrMsg "/bad.html"]) ∧
    FindBrokenLinks fsC1 [] "/bad.html" = ([parseErrMsg "/bad.html"], []) :=
  have h := C1_amended_parse_failure_isolated fsC1 ["/bad.html", "/good.html"]
    "/bad.html" (by decide) (by decide)
  ⟨h.1, h.2.1 [], h.2.2.1 []⟩

end FBIL
